import Mathlib

/-!
Verification development for the rusterizer software rasterizer.

The Rust source is shallowly embedded in Lean:
* `f64` values flowing through the pipeline are modelled by `ℚ`
  (exact arithmetic; all concrete inputs used below are exactly
  representable and exactly computed in binary floating point).
* The extended values needed by `Image::sample_nearest` (whose UV inputs
  may be infinite) are modelled by `XQ`, rationals extended with the two
  infinities.
* Rust panics (slice out of bounds) are modelled by `Option`: a `none`
  result models an aborted call.
* The color and depth framebuffers borrowed by the pipeline are modelled
  as total grids (`Nat → Nat → _`); every pipeline access is within the
  bounding box, which is clamped to the image, so no out-of-bounds
  access arises in the modelled executions.
-/

/-- Model of a 2-component f64 vector (nalgebra `Vector2<f64>`). -/
structure Vec2 where
  x : ℚ
  y : ℚ
deriving DecidableEq

/-- Model of a 3-component f64 vector (nalgebra `Vector3<f64>`). -/
structure Vec3 where
  x : ℚ
  y : ℚ
  z : ℚ
deriving DecidableEq

/-- Model of a 4-component f64 vector (nalgebra `Vector4<f64>`). -/
structure Vec4 where
  x : ℚ
  y : ℚ
  z : ℚ
  w : ℚ
deriving DecidableEq

/-- Model of the `Rgba<u8>` pixel from src/image.rs: four 8-bit channels. -/
structure Rgba where
  r : ℕ
  g : ℕ
  b : ℕ
  a : ℕ
deriving DecidableEq

/-- Embeds src/math.rs `clamp`: `f64::min(max, f64::max(min, val))`. -/
def clampQ (val lo hi : ℚ) : ℚ :=
  min hi (max lo val)

/-- Largest `u32` value, the saturation bound of Rust `as u32` casts. -/
def U32MAX : ℕ := 4294967295

/-- Rust `f64 as u32` on a finite value: saturating cast, truncating
toward zero; negative values go to 0, values above `u32::MAX` saturate. -/
def ratToU32 (q : ℚ) : ℕ :=
  if q < 0 then 0 else min q.floor.toNat U32MAX

/-- Rust `f64 as u8` on a finite value: saturating cast, truncating
toward zero. -/
def ratToU8 (q : ℚ) : ℕ :=
  if q < 0 then 0 else min q.floor.toNat 255

/-- Embeds the nalgebra cross product on 3-vectors, used by `face_normal` and
`barycentric` in src/lib.rs. -/
def cross3 (u v : Vec3) : Vec3 :=
  ⟨u.y * v.z - u.z * v.y, u.z * v.x - u.x * v.z, u.x * v.y - u.y * v.x⟩

/-- Embeds src/lib.rs `face_normal`: `(b - a).cross(&(c - a))`. -/
def faceNormal (a b c : Vec3) : Vec3 :=
  cross3 ⟨b.x - a.x, b.y - a.y, b.z - a.z⟩ ⟨c.x - a.x, c.y - a.y, c.z - a.z⟩

/-- Embeds src/lib.rs `bounding_box`: screen-space bounds of the triangle,
bottom-right clamped against the image (`saturating_sub`), corners cast
with `as u32`. -/
def boundingBox (a b c : Vec2) (width height : ℕ) :
    (ℕ × ℕ) × (ℕ × ℕ) :=
  let xmin := min (min a.x b.x) c.x
  let xmax := max (max a.x b.x) c.x
  let ymin := min (min a.y b.y) c.y
  let ymax := max (max a.y b.y) c.y
  ((ratToU32 xmin, ratToU32 ymin),
   (min (ratToU32 xmax) (width - 1), min (ratToU32 ymax) (height - 1)))

/-- Embeds src/lib.rs `barycentric`: barycentric coordinates of `p` in triangle
`a b c`; `none` for degenerate triangles (`|ortho.z| < 1`). -/
def barycentric (a b c p : Vec2) : Option Vec3 :=
  let ab : Vec2 := ⟨b.x - a.x, b.y - a.y⟩
  let ac : Vec2 := ⟨c.x - a.x, c.y - a.y⟩
  let pa : Vec2 := ⟨a.x - p.x, a.y - p.y⟩
  let ortho := cross3 ⟨ac.x, ab.x, pa.x⟩ ⟨ac.y, ab.y, pa.y⟩
  if |ortho.z| < 1 then
    none
  else
    some ⟨1 - (ortho.x + ortho.y) / ortho.z, ortho.y / ortho.z,
          ortho.x / ortho.z⟩

/-- Embeds src/shader.rs `Smooth for f64`: `a * bar.x + b * bar.y + c * bar.z`. -/
def interpQ (a b c : ℚ) (bar : Vec3) : ℚ :=
  a * bar.x + b * bar.y + c * bar.z

/-- Embeds src/shader.rs `Smooth for Vector4<f64>`: component-wise blend. -/
def interp4 (a b c : Vec4) (bar : Vec3) : Vec4 :=
  ⟨interpQ a.x b.x c.x bar, interpQ a.y b.y c.y bar,
   interpQ a.z b.z c.z bar, interpQ a.w b.w c.w bar⟩

/-- Embeds src/lib.rs `vec_to_rgba`: clamp each component to [0, 1], scale by
255, truncate with `as u8`. -/
def vecToRgba (color : Vec4) : Rgba :=
  ⟨ratToU8 (clampQ color.x 0 1 * 255), ratToU8 (clampQ color.y 0 1 * 255),
   ratToU8 (clampQ color.z 0 1 * 255), ratToU8 (clampQ color.w 0 1 * 255)⟩

/-- Embeds src/lib.rs `world_to_screen`. -/
def worldToScreen (wc : Vec4) (halfWidth halfHeight : ℚ) : Vec4 :=
  ⟨(wc.x + 1) * halfWidth, (wc.y + 1) * halfHeight,
   clampQ wc.z (-1) 1, wc.w⟩

/-- Embeds src/lib.rs `from_homogenous`: `(x/w, y/w, z/w, 1/w)`.  (In `ℚ`,
division by zero yields 0; the theorems below that depend on this
function carry a `w ≠ 0` hypothesis.) -/
def fromHomogenous (v : Vec4) : Vec4 :=
  ⟨v.x / v.w, v.y / v.w, v.z / v.w, 1 / v.w⟩

/-- The clip-to-screen mapping applied by `Pipeline::triangles`
(src/lib.rs lines 89-91): homogeneous divide followed by
`world_to_screen`. -/
def screenOfClip (clip : Vec4) (halfWidth halfHeight : ℚ) : Vec4 :=
  worldToScreen (fromHomogenous clip) halfWidth halfHeight

/-- Embeds src/lib.rs lines 53-54: `f64::from(width / 2)` — the half extent is
computed with integer division of the `u32` dimension. -/
def dimHalf (n : ℕ) : ℚ := ((n / 2 : ℕ) : ℚ)

/-- Refinement definition, modelled from the spec's words
("x = (clip.x + 1)·W/2"): the exact rational half-dimension
mapping the spec describes, to be compared with `screenOfClip`. -/
def specScreenX (w : ℕ) (ndcx : ℚ) : ℚ :=
  (ndcx + 1) * (w : ℚ) / 2

/-- Embeds src/lib.rs `CullFace`. -/
inductive CullFace where
  | Front
  | Back
  | FrontAndBack
deriving DecidableEq

/-- The `ShaderProgram` contract used by `Pipeline` (src/shader.rs,
src/lib.rs): associated attribute and varying types, the `Default`
varying, the `Smooth` blend of varyings, and the vertex and fragment
stages.  `vertex` receives the current contents of the varying slot
(`&mut Varying` in the source) and returns the new contents together
with the clip position. -/
structure SProg where
  Attr : Type
  Var : Type
  dflt : Var
  interp : Var → Var → Var → Vec3 → Var
  vertex : Attr → Var → Var × Vec4
  fragment : Vec4 → Var → Vec4

/-- The pair of framebuffers (`RgbaImage<u8>`, `DepthImage<f64>`)
mutably borrowed by the pipeline, modelled as total pixel grids. -/
@[ext]
structure FB where
  color : ℕ → ℕ → Rgba
  depth : ℕ → ℕ → ℚ

/-- Point update of a pixel grid (models `Image::set_pixel` on an
in-bounds coordinate). -/
def gridUpdate {β : Type} (f : ℕ → ℕ → β) (x y : ℕ) (v : β) :
    ℕ → ℕ → β :=
  fun x' y' => if x' = x ∧ y' = y then v else f x' y'

/-- One triangle as handed to `Pipeline::triangle`: the three screen
positions and the three varying records. -/
structure TriIn (S : SProg) where
  a : Vec4
  b : Vec4
  c : Vec4
  va : S.Var
  vb : S.Var
  vc : S.Var

/-- The per-sample fragment computation of `Pipeline::triangle`
(src/lib.rs lines 125-139): barycentric coordinates, inside test, depth
remap `z/2 + 0.5` (the remapped position is also what the fragment
stage receives), fragment-stage invocation and `vec_to_rgba`
quantization.  `none` models a sample rejected before the depth test. -/
def fragResult (S : SProg) (t : TriIn S) (x y : ℕ) : Option (ℚ × Rgba) :=
  match barycentric ⟨t.a.x, t.a.y⟩ ⟨t.b.x, t.b.y⟩ ⟨t.c.x, t.c.y⟩
      ⟨(x : ℚ), (y : ℚ)⟩ with
  | none => none
  | some bc =>
    if bc.x < 0 ∨ bc.y < 0 ∨ bc.z < 0 then none
    else
      let fpos0 := interp4 t.a t.b t.c bc
      let fd := fpos0.z / 2 + 1/2
      some (fd, vecToRgba (S.fragment ⟨fpos0.x, fpos0.y, fd, fpos0.w⟩
            (S.interp t.va t.vb t.vc bc)))

/-- One iteration of the pixel loops of `Pipeline::triangle`
(src/lib.rs lines 122-146): the GL_LESS depth test against the stored
depth at the Y-flipped row `height - 1 - y` and the conditional
write-back of color and depth. -/
def rasterSample (S : SProg) (t : TriIn S) (height : ℕ) (s : FB)
    (xy : ℕ × ℕ) : FB :=
  match fragResult S t xy.1 xy.2 with
  | none => s
  | some fc =>
    if fc.1 < s.depth xy.1 (height - 1 - xy.2) then
      { color := gridUpdate s.color xy.1 (height - 1 - xy.2) fc.2,
        depth := gridUpdate s.depth xy.1 (height - 1 - xy.2) fc.1 }
    else s

/-- Inclusive Rust range `a..=b` as a list. -/
def rangeIncl (a b : ℕ) : List ℕ := List.range' a (b + 1 - a)

/-- The screen-space bounding box of a triangle's three xy positions
(src/lib.rs line 120). -/
def triBB (S : SProg) (t : TriIn S) (width height : ℕ) :
    (ℕ × ℕ) × (ℕ × ℕ) :=
  boundingBox ⟨t.a.x, t.a.y⟩ ⟨t.b.x, t.b.y⟩ ⟨t.c.x, t.c.y⟩ width height

/-- Embeds src/lib.rs `Pipeline::triangle`: the bounding box and the nested
`x`/`y` pixel loops. -/
def rasterTriangle (S : SProg) (t : TriIn S) (width height : ℕ)
    (s : FB) : FB :=
  (rangeIncl (triBB S t width height).1.1 (triBB S t width height).2.1).foldl
    (fun s x =>
      (rangeIncl (triBB S t width height).1.2
          (triBB S t width height).2.2).foldl
        (fun s y => rasterSample S t height s (x, y)) s) s

/-- Per-triangle vertex-stage data: the varying contents observed by
the three `vertex` invocations (the state of `var_a`, `var_b`, `var_c`
just before the calls), the contents they leave behind, and the
returned clip positions. -/
structure TriVert (S : SProg) where
  obs : S.Var × S.Var × S.Var
  vars : S.Var × S.Var × S.Var
  worlds : Vec4 × Vec4 × Vec4

/-- The vertex-stage loop of `Pipeline::triangles` (src/lib.rs lines
56-65): the three varying records are allocated once (`default()`
before the loop) and threaded through consecutive triangles; the buffer
is consumed in groups of three and a trailing remainder is ignored
(`0..buffer.len() / 3`). -/
def processTriples (S : SProg) :
    List S.Attr → S.Var × S.Var × S.Var → List (TriVert S)
  | a :: b :: c :: rest, (va, vb, vc) =>
    let ra := S.vertex a va
    let rb := S.vertex b vb
    let rc := S.vertex c vc
    ⟨(va, vb, vc), (ra.1, rb.1, rc.1), (ra.2, rb.2, rc.2)⟩ ::
      processTriples S rest (ra.1, rb.1, rc.1)
  | _, _ => []

/-- Embeds src/lib.rs lines 67-84: the culling decision, made from the
clip-space xyz face normal, before the homogeneous divide. -/
def shouldCull (cf : Option CullFace) (wa wb wc : Vec4) : Bool :=
  match cf with
  | none => false
  | some cull =>
    let n := faceNormal ⟨wa.x, wa.y, wa.z⟩ ⟨wb.x, wb.y, wb.z⟩
      ⟨wc.x, wc.y, wc.z⟩
    match cull with
    | CullFace.FrontAndBack => true
    | CullFace.Front => decide (n.z > 0)
    | CullFace.Back => decide (n.z < 0)

/-- Embeds src/lib.rs `Pipeline::triangles` (the spec's `draw_triangles`):
vertex stage, optional culling, clip-to-screen mapping and
rasterization of each triangle in buffer order.  The two images have
equal dimensions (asserted by the source), so a single `width`/`height`
pair is carried. -/
def drawTriangles (cullFace : Option CullFace) (S : SProg)
    (buffer : List S.Attr) (width height : ℕ) (s : FB) : FB :=
  (processTriples S buffer (S.dflt, S.dflt, S.dflt)).foldl
    (fun s tv =>
      if shouldCull cullFace tv.worlds.1 tv.worlds.2.1 tv.worlds.2.2
      then s
      else
        rasterTriangle S
          { a := screenOfClip tv.worlds.1 (dimHalf width) (dimHalf height),
            b := screenOfClip tv.worlds.2.1 (dimHalf width) (dimHalf height),
            c := screenOfClip tv.worlds.2.2 (dimHalf width) (dimHalf height),
            va := tv.vars.1, vb := tv.vars.2.1, vc := tv.vars.2.2 }
          width height s) s

/-- The varying contents observed by each triangle's three vertex
invocations during a `draw_triangles` call. -/
def obsList (S : SProg) (buffer : List S.Attr) :
    List (S.Var × S.Var × S.Var) :=
  (processTriples S buffer (S.dflt, S.dflt, S.dflt)).map TriVert.obs

/-- The varying contents left behind by each triangle's three vertex
invocations during a `draw_triangles` call. -/
def outList (S : SProg) (buffer : List S.Attr) :
    List (S.Var × S.Var × S.Var) :=
  (processTriples S buffer (S.dflt, S.dflt, S.dflt)).map TriVert.vars

/-- Embeds src/image.rs `Image<P>`: width, height and the flat channel buffer.
`c` is `P::channel_count()` (4 for `Rgba`, 1 for `Depth`); `α` is
`P::DataType`. -/
structure Image (α : Type) (c : ℕ) where
  width : ℕ
  height : ℕ
  buffer : List α
deriving DecidableEq

/-- Model of the Rust slice `&buf[i..j]`: `none` models the out-of-bounds panic
(`j > len`). -/
def sliceRange {α : Type} (l : List α) (i j : ℕ) : Option (List α) :=
  if i ≤ j ∧ j ≤ l.length then some ((l.drop i).take (j - i)) else none

namespace Image

/-- Embeds src/image.rs `Image::from_raw`: succeeds iff
`w * h * channel_count <= buffer.len()`, keeping the given buffer. -/
def fromRaw {α : Type} {c : ℕ} (buffer : List α) (width height : ℕ) :
    Option (Image α c) :=
  if width * height * c ≤ buffer.length then
    some ⟨width, height, buffer⟩
  else none

/-- Embeds src/image.rs `Image::pixel`: reads the channel slice at
`channel_count * (y * width + x)`; `none` models the slice panic. -/
def pixel {α : Type} {c : ℕ} (img : Image α c) (x y : ℕ) :
    Option (List α) :=
  sliceRange img.buffer (c * (y * img.width + x)) (c * (y * img.width + x) + c)

/-- Embeds src/image.rs `Image::set_pixel` (via `pixel_mut`): writes the
channel slice at `channel_count * (y * width + x)`; `none` models the
slice panic, in which case nothing is written. -/
def setPixel {α : Type} {c : ℕ} (img : Image α c) (x y : ℕ) (p : List α) :
    Option (Image α c) :=
  if c * (y * img.width + x) + c ≤ img.buffer.length then
    some ⟨img.width, img.height,
      (img.buffer.take (c * (y * img.width + x))) ++ p ++
        (img.buffer.drop (c * (y * img.width + x) + c))⟩
  else none

/-- Embeds src/image.rs `Image::dimensions`. -/
def dimensions {α : Type} {c : ℕ} (img : Image α c) : ℕ × ℕ :=
  (img.width, img.height)

end Image

/-- Model of an `f64` that may be infinite, for the UV arguments of
`Image::sample_nearest` (C7 quantifies over infinities).  NaN never
arises in the modelled computations. -/
inductive XQ where
  | fin : ℚ → XQ
  | pinf
  | ninf
deriving DecidableEq

/-- Rust `f64::min` restricted to non-NaN values: the mathematical
minimum, with infinities ordered below/above all finite values. -/
def xqMin (a b : XQ) : XQ :=
  match a, b with
  | XQ.fin q, XQ.fin r => XQ.fin (min q r)
  | XQ.ninf, _ => XQ.ninf
  | _, XQ.ninf => XQ.ninf
  | XQ.pinf, b => b
  | a, XQ.pinf => a

/-- Rust `f64::max` restricted to non-NaN values. -/
def xqMax (a b : XQ) : XQ :=
  match a, b with
  | XQ.fin q, XQ.fin r => XQ.fin (max q r)
  | XQ.pinf, _ => XQ.pinf
  | _, XQ.pinf => XQ.pinf
  | XQ.ninf, b => b
  | a, XQ.ninf => a

/-- Embeds src/math.rs `clamp` applied to a possibly-infinite value:
`f64::min(max, f64::max(min, val))`. -/
def xqClamp (val : XQ) (lo hi : ℚ) : XQ :=
  xqMin (XQ.fin hi) (xqMax (XQ.fin lo) val)

/-- Model of `(v * (n as f64)) as u32` for a possibly-infinite `v` and a `ℕ`
scale: on finite values the saturating truncating cast `ratToU32`; on
`+∞` the product is `+∞` (cast saturates to `u32::MAX`) unless the
scale is 0, in which case `∞ · 0` is NaN and the cast yields 0; on `-∞`
the cast yields 0. -/
def xqScaleCast (v : XQ) (n : ℕ) : ℕ :=
  match v with
  | XQ.fin q => ratToU32 (q * n)
  | XQ.pinf => if n = 0 then 0 else U32MAX
  | XQ.ninf => 0

/-- Embeds src/image.rs `Image::sample_nearest`: clamp UV to [0, 1], scale by
`saturating_sub(dim, 1)`, cast with `as u32` and read the pixel.  The
`Into` conversion of the source (`Rgba<T> → Vector4<T>`) returns the
channels unchanged, so the channel list itself is returned. -/
def Image.sampleNearest {α : Type} (img : Image α 4) (u v : XQ) :
    Option (List α) :=
  let x := xqScaleCast (xqClamp u 0 1) (img.width - 1)
  let y := xqScaleCast (xqClamp v 0 1) (img.height - 1)
  img.pixel x y

/-- The (depth, color) contents of one framebuffer pixel. -/
def FB.cell (s : FB) (p : ℕ × ℕ) : ℚ × Rgba :=
  (s.depth p.1 p.2, s.color p.1 p.2)

/-- The pixel a sample `(x, y)` writes to: the Y-flipped coordinate
`(x, height - 1 - y)`. -/
def sampleTarget (height : ℕ) (xy : ℕ × ℕ) : ℕ × ℕ :=
  (xy.1, height - 1 - xy.2)

/-- The abstract effect of one sample on its target pixel: no fragment,
or GL_LESS-guarded overwrite. -/
def pixelStep (fr : Option (ℚ × Rgba)) (dc : ℚ × Rgba) : ℚ × Rgba :=
  match fr with
  | none => dc
  | some fc => if fc.1 < dc.1 then fc else dc

/-- A trivial shader program with unit attribute and varying records
and a constant red fragment stage, for concrete evaluations. -/
@[reducible] def unitShader : SProg :=
  ⟨Unit, Unit, (), fun _ _ _ _ => (), fun _ _ => ((), ⟨0, 0, 0, 1⟩),
   fun _ _ => ⟨1, 0, 0, 1⟩⟩

/-- A pass-through shader program: the attribute is the clip position,
the varying is unit, the fragment stage is constant red. -/
@[reducible] def passShader : SProg :=
  ⟨Vec4, Unit, (), fun _ _ _ _ => (), fun a _ => ((), a),
   fun _ _ => ⟨1, 0, 0, 1⟩⟩

/-- A shader with a rational varying blended by the `Smooth` f64 blend;
the fragment stage puts the interpolated varying in the red channel. -/
@[reducible] def blendShader : SProg :=
  ⟨Unit, ℚ, 0, fun a b c bc => interpQ a b c bc,
   fun _ v => (v, ⟨0, 0, 0, 1⟩), fun _ v => ⟨v, 0, 0, 1⟩⟩

/-- A shader whose varying "interpolation" just returns the second
vertex's varying — a legal `Smooth` implementation that is not
symmetric under swapping the last two vertices. -/
@[reducible] def asymShader : SProg :=
  ⟨ℚ × Vec4, ℚ, 0, fun _ b _ _ => b, fun av _ => (av.1, av.2),
   fun _ v => ⟨v, v, v, 1⟩⟩

/-- A shader whose vertex stage increments the varying record it is
handed, making the contents of the reused varying slots observable. -/
@[reducible] def countShader : SProg :=
  ⟨Unit, ℤ, 0, fun _ _ _ _ => 0, fun _ v => (v + 1, ⟨0, 0, 0, 1⟩),
   fun _ _ => ⟨0, 0, 0, 0⟩⟩

/-- A screen-space triangle covering the lower-left half of a 4×4
image, at NDC depth 0. -/
def triW1 : TriIn unitShader :=
  ⟨⟨0, 0, 0, 1⟩, ⟨4, 0, 0, 1⟩, ⟨0, 4, 0, 1⟩, (), (), ()⟩

/-- The same screen footprint as `triW1` for `blendShader`, at NDC
depth −1/2, with all varyings 1 (red fragments). -/
def triNear : TriIn blendShader :=
  ⟨⟨0, 0, -1/2, 1⟩, ⟨4, 0, -1/2, 1⟩, ⟨0, 4, -1/2, 1⟩, 1, 1, 1⟩

/-- The same screen footprint as `triW1` for `blendShader`, at NDC
depth 0, with all varyings 0 (black fragments). -/
def triFar : TriIn blendShader :=
  ⟨⟨0, 0, 0, 1⟩, ⟨4, 0, 0, 1⟩, ⟨0, 4, 0, 1⟩, 0, 0, 0⟩

/-- A framebuffer pair cleared to transparent black and depth 1. -/
def fbInit : FB := ⟨fun _ _ => ⟨0, 0, 0, 0⟩, fun _ _ => 1⟩

/-- A fullscreen triangle whose vertices all have clip-space w = −1. -/
def negWBuf : List Vec4 :=
  [⟨1, 1, 0, -1⟩, ⟨-1, 1, 0, -1⟩, ⟨1, -1, 0, -1⟩]

/-- A fullscreen triangle with w = 1, counter-clockwise in NDC. -/
def ccwBuf : List Vec4 :=
  [⟨-1, -1, 0, 1⟩, ⟨1, -1, 0, 1⟩, ⟨-1, 1, 0, 1⟩]

/-- The `ccwBuf` triangle tagged for `asymShader`: vertices a and b
carry tag 0, vertex c carries tag 1. -/
def tagBufABC : List (ℚ × Vec4) :=
  [(0, ⟨-1, -1, 0, 1⟩), (0, ⟨1, -1, 0, 1⟩), (1, ⟨-1, 1, 0, 1⟩)]

/-- `tagBufABC` with the second and third vertices swapped (reversed
winding). -/
def tagBufACB : List (ℚ × Vec4) :=
  [(0, ⟨-1, -1, 0, 1⟩), (1, ⟨-1, 1, 0, 1⟩), (0, ⟨1, -1, 0, 1⟩)]

/-- Six unit attributes: two triangles for `countShader`. -/
def sixUnits : List Unit := [(), (), (), (), (), ()]

/-- A concrete 2×2 RGBA image whose buffer is 0..15 row-major. -/
def img22 : Image ℕ 4 :=
  ⟨2, 2, [0, 1, 2, 3, 4, 5, 6, 7, 8, 9, 10, 11, 12, 13, 14, 15]⟩

/-- A 0×0 RGBA image with an empty buffer. -/
def img00 : Image ℕ 4 := ⟨0, 0, []⟩

theorem rasterSample_cell_target (S : SProg) (t : TriIn S) (height : ℕ)
    (s : FB) (xy : ℕ × ℕ) :
    (rasterSample S t height s xy).cell (sampleTarget height xy) =
      pixelStep (fragResult S t xy.1 xy.2)
        (s.cell (sampleTarget height xy)) := by
  unfold rasterSample pixelStep sampleTarget FB.cell gridUpdate
  cases fragResult S t xy.1 xy.2 with
  | none => rfl
  | some fc => by_cases h : fc.1 < s.depth xy.1 (height - 1 - xy.2) <;>
      simp [h]

theorem rasterSample_cell_frame (S : SProg) (t : TriIn S) (height : ℕ)
    (s : FB) (xy : ℕ × ℕ) (p : ℕ × ℕ) (h : p ≠ sampleTarget height xy) :
    (rasterSample S t height s xy).cell p = s.cell p := by
  have hne : ¬(p.1 = xy.1 ∧ p.2 = height - 1 - xy.2) := by
    intro hc
    exact h (Prod.ext hc.1 hc.2)
  unfold rasterSample FB.cell gridUpdate
  cases fragResult S t xy.1 xy.2 with
  | none => rfl
  | some fc =>
    by_cases hlt : fc.1 < s.depth xy.1 (height - 1 - xy.2) <;>
      simp [hlt, hne]

theorem innerFold_frame (S : SProg) (t : TriIn S) (height : ℕ) (x : ℕ)
    (ys : List ℕ) (s : FB) (p : ℕ × ℕ)
    (h : ∀ y ∈ ys, p ≠ sampleTarget height (x, y)) :
    ((ys.foldl (fun s y => rasterSample S t height s (x, y)) s).cell p) =
      s.cell p := by
  induction ys generalizing s with
  | nil => rfl
  | cons y ys ih =>
    simp only [List.foldl_cons]
    rw [ih _ (fun y' hy' => h y' (List.mem_cons_of_mem _ hy'))]
    exact rasterSample_cell_frame S t height s (x, y) p
      (h y (List.mem_cons_self _ _))

theorem innerFold_local (S : SProg) (t : TriIn S) (height : ℕ) (x₀ y₀ : ℕ)
    (y1 y2 : List ℕ) (s : FB)
    (h1 : ∀ y ∈ y1, sampleTarget height (x₀, y₀) ≠ sampleTarget height (x₀, y))
    (h2 : ∀ y ∈ y2, sampleTarget height (x₀, y₀) ≠ sampleTarget height (x₀, y)) :
    (((y1 ++ y₀ :: y2).foldl
        (fun s y => rasterSample S t height s (x₀, y)) s).cell
      (sampleTarget height (x₀, y₀))) =
      pixelStep (fragResult S t x₀ y₀)
        (s.cell (sampleTarget height (x₀, y₀))) := by
  rw [List.foldl_append, List.foldl_cons]
  rw [innerFold_frame S t height x₀ y2 _ _ h2]
  rw [rasterSample_cell_target]
  rw [innerFold_frame S t height x₀ y1 s _ h1]

theorem rangeIncl_mem (a b y : ℕ) : y ∈ rangeIncl a b ↔ a ≤ y ∧ y ≤ b := by
  unfold rangeIncl
  rw [List.mem_range'_1]
  omega

theorem rangeIncl_split (a b m : ℕ) (h1 : a ≤ m) (h2 : m ≤ b) :
    rangeIncl a b =
      List.range' a (m - a) ++ m :: List.range' (m + 1) (b - m) := by
  unfold rangeIncl
  have e1 : b + 1 - a = ((b - m) + 1) + (m - a) := by omega
  rw [e1, ← List.range'_append_1]
  have e2 : a + (m - a) = m := by omega
  rw [e2, List.range'_succ]

theorem outerFold_frame (S : SProg) (t : TriIn S) (height : ℕ)
    (xs ys : List ℕ) (s : FB) (p : ℕ × ℕ) (h : ∀ x ∈ xs, p.1 ≠ x) :
    ((xs.foldl
        (fun s x => ys.foldl (fun s y => rasterSample S t height s (x, y)) s)
        s).cell p) = s.cell p := by
  induction xs generalizing s with
  | nil => rfl
  | cons x xs ih =>
    simp only [List.foldl_cons]
    rw [ih _ (fun x' hx' => h x' (List.mem_cons_of_mem _ hx'))]
    exact innerFold_frame S t height x ys s p
      (fun y _ hc => h x (List.mem_cons_self _ _) (congrArg Prod.fst hc))

/-- Localization of `Pipeline::triangle` at one sample of its bounding
box: the pixel `(x₀, height - 1 - y₀)` is touched only by the loop
iteration at `(x₀, y₀)`, whose effect is `pixelStep` of that sample's
fragment. -/
theorem rasterTriangle_cell_local (S : SProg) (t : TriIn S)
    (width height : ℕ) (s : FB) (x₀ y₀ : ℕ)
    (hx1 : (triBB S t width height).1.1 ≤ x₀)
    (hx2 : x₀ ≤ (triBB S t width height).2.1)
    (hy1 : (triBB S t width height).1.2 ≤ y₀)
    (hy2 : y₀ ≤ (triBB S t width height).2.2) :
    (rasterTriangle S t width height s).cell (sampleTarget height (x₀, y₀)) =
      pixelStep (fragResult S t x₀ y₀)
        (s.cell (sampleTarget height (x₀, y₀))) := by
  have hbry : (triBB S t width height).2.2 ≤ height - 1 := by
    unfold triBB boundingBox
    exact Nat.min_le_right _ _
  rw [rasterTriangle,
    rangeIncl_split (triBB S t width height).1.1 (triBB S t width height).2.1
      x₀ hx1 hx2,
    rangeIncl_split (triBB S t width height).1.2 (triBB S t width height).2.2
      y₀ hy1 hy2]
  rw [List.foldl_append, List.foldl_cons]
  have hpre : ∀ x ∈ List.range' (triBB S t width height).1.1
      (x₀ - (triBB S t width height).1.1),
      (sampleTarget height (x₀, y₀)).1 ≠ x := by
    intro x hx
    rw [List.mem_range'_1] at hx
    simp only [sampleTarget]
    omega
  have hpost : ∀ x ∈ List.range' (x₀ + 1)
      ((triBB S t width height).2.1 - x₀),
      (sampleTarget height (x₀, y₀)).1 ≠ x := by
    intro x hx
    rw [List.mem_range'_1] at hx
    simp only [sampleTarget]
    omega
  rw [outerFold_frame S t height _ _ _ _ hpost]
  have hy1' : ∀ y ∈ List.range' (triBB S t width height).1.2
      (y₀ - (triBB S t width height).1.2),
      sampleTarget height (x₀, y₀) ≠ sampleTarget height (x₀, y) := by
    intro y hy hc
    rw [List.mem_range'_1] at hy
    have hsnd := congrArg Prod.snd hc
    simp only [sampleTarget] at hsnd
    omega
  have hy2' : ∀ y ∈ List.range' (y₀ + 1)
      ((triBB S t width height).2.2 - y₀),
      sampleTarget height (x₀, y₀) ≠ sampleTarget height (x₀, y) := by
    intro y hy hc
    rw [List.mem_range'_1] at hy
    have hsnd := congrArg Prod.snd hc
    simp only [sampleTarget] at hsnd
    omega
  rw [innerFold_local S t height x₀ y₀ _ _ _ hy1' hy2']
  rw [outerFold_frame S t height _ _ _ _ hpre]

theorem rasterSample_depth_le (S : SProg) (t : TriIn S) (height : ℕ)
    (s : FB) (xy : ℕ × ℕ) (px py : ℕ) :
    (rasterSample S t height s xy).depth px py ≤ s.depth px py := by
  unfold rasterSample gridUpdate
  cases fragResult S t xy.1 xy.2 with
  | none => exact le_refl _
  | some fc =>
    by_cases hlt : fc.1 < s.depth xy.1 (height - 1 - xy.2) <;> simp [hlt]
    by_cases hp : px = xy.1 ∧ py = height - 1 - xy.2
    · rw [if_pos hp, hp.1, hp.2]
      exact le_of_lt hlt
    · rw [if_neg hp]

theorem foldl_depth_le {β : Type} (f : FB → β → FB)
    (hf : ∀ s b px py, (f s b).depth px py ≤ s.depth px py)
    (l : List β) (s : FB) (px py : ℕ) :
    (l.foldl f s).depth px py ≤ s.depth px py := by
  induction l generalizing s with
  | nil => exact le_refl _
  | cons b l ih => exact le_trans (ih (f s b)) (hf s b px py)

theorem rasterTriangle_depth_le (S : SProg) (t : TriIn S)
    (width height : ℕ) (s : FB) (px py : ℕ) :
    (rasterTriangle S t width height s).depth px py ≤ s.depth px py := by
  unfold rasterTriangle
  exact foldl_depth_le _
    (fun s x px py => foldl_depth_le _
      (fun s y px py => rasterSample_depth_le S t height s (x, y) px py)
      _ s px py)
    _ s px py

/-- Claim C10: within a single `draw_triangles` call the stored depth at
every pixel is monotonically non-increasing — each write is guarded by a
strict `<` test against the stored value, so the final depth at any
pixel is at most the initial one, for every culling mode, shader,
attribute buffer and starting framebuffer pair. -/
theorem drawTriangles_depth_monotone (cullFace : Option CullFace)
    (S : SProg) (buffer : List S.Attr) (width height : ℕ) (s : FB)
    (px py : ℕ) :
    (drawTriangles cullFace S buffer width height s).depth px py ≤
      s.depth px py := by
  unfold drawTriangles
  refine foldl_depth_le _ (fun s tv px py => ?_) _ s px py
  by_cases hc : shouldCull cullFace tv.worlds.1 tv.worlds.2.1 tv.worlds.2.2
  · rw [if_pos hc]
  · rw [if_neg hc]
    exact rasterTriangle_depth_le S _ width height s px py

theorem fragResult_of_inside (S : SProg) (t : TriIn S) (x y : ℕ) (bc : Vec3)
    (hbc : barycentric ⟨t.a.x, t.a.y⟩ ⟨t.b.x, t.b.y⟩ ⟨t.c.x, t.c.y⟩
      ⟨(x : ℚ), (y : ℚ)⟩ = some bc)
    (hnn : 0 ≤ bc.x ∧ 0 ≤ bc.y ∧ 0 ≤ bc.z) :
    fragResult S t x y =
      some ((interp4 t.a t.b t.c bc).z / 2 + 1/2,
        vecToRgba (S.fragment
          ⟨(interp4 t.a t.b t.c bc).x, (interp4 t.a t.b t.c bc).y,
           (interp4 t.a t.b t.c bc).z / 2 + 1/2, (interp4 t.a t.b t.c bc).w⟩
          (S.interp t.va t.vb t.vc bc))) := by
  unfold fragResult
  rw [hbc]
  have hneg : ¬(bc.x < 0 ∨ bc.y < 0 ∨ bc.z < 0) := by
    push_neg
    exact ⟨hnn.1, hnn.2.1, hnn.2.2⟩
  simp [hneg]

/-- Claim C1: at every sample `(x₀, y₀)` of the bounding box of a
non-degenerate triangle whose barycentric coordinates are all
non-negative, `draw_triangles` targets the Y-flipped row
`yf = height - 1 - y₀`; it computes `frag_depth = pz/2 + 0.5` from the
barycentrically blended screen position, rejects the fragment (leaving
color and depth unchanged at that pixel) when `frag_depth` is at least
the stored depth at `(x₀, yf)`, and otherwise writes the
clamped/255-scaled/truncated fragment color there and overwrites the
depth there with `frag_depth`. -/
theorem rasterTriangle_sample_write (S : SProg) (t : TriIn S)
    (width height : ℕ) (s : FB) (x₀ y₀ : ℕ) (bc : Vec3)
    (_hH : 1 ≤ height)
    (hx1 : (triBB S t width height).1.1 ≤ x₀)
    (hx2 : x₀ ≤ (triBB S t width height).2.1)
    (hy1 : (triBB S t width height).1.2 ≤ y₀)
    (hy2 : y₀ ≤ (triBB S t width height).2.2)
    (hbc : barycentric ⟨t.a.x, t.a.y⟩ ⟨t.b.x, t.b.y⟩ ⟨t.c.x, t.c.y⟩
      ⟨(x₀ : ℚ), (y₀ : ℚ)⟩ = some bc)
    (hnn : 0 ≤ bc.x ∧ 0 ≤ bc.y ∧ 0 ≤ bc.z) :
    (s.depth x₀ (height - 1 - y₀) ≤ (interp4 t.a t.b t.c bc).z / 2 + 1/2 →
      (rasterTriangle S t width height s).depth x₀ (height - 1 - y₀) =
          s.depth x₀ (height - 1 - y₀) ∧
        (rasterTriangle S t width height s).color x₀ (height - 1 - y₀) =
          s.color x₀ (height - 1 - y₀)) ∧
    ((interp4 t.a t.b t.c bc).z / 2 + 1/2 < s.depth x₀ (height - 1 - y₀) →
      (rasterTriangle S t width height s).depth x₀ (height - 1 - y₀) =
          (interp4 t.a t.b t.c bc).z / 2 + 1/2 ∧
        (rasterTriangle S t width height s).color x₀ (height - 1 - y₀) =
          vecToRgba (S.fragment
            ⟨(interp4 t.a t.b t.c bc).x, (interp4 t.a t.b t.c bc).y,
             (interp4 t.a t.b t.c bc).z / 2 + 1/2,
             (interp4 t.a t.b t.c bc).w⟩
            (S.interp t.va t.vb t.vc bc))) := by
  have hcell := rasterTriangle_cell_local S t width height s x₀ y₀
    hx1 hx2 hy1 hy2
  rw [fragResult_of_inside S t x₀ y₀ bc hbc hnn] at hcell
  simp only [pixelStep, FB.cell, sampleTarget] at hcell
  constructor
  · intro hge
    rw [if_neg (not_lt.mpr hge)] at hcell
    exact ⟨congrArg Prod.fst hcell, congrArg Prod.snd hcell⟩
  · intro hlt
    rw [if_pos hlt] at hcell
    exact ⟨congrArg Prod.fst hcell, congrArg Prod.snd hcell⟩

/-- Witness for C1 at a concrete triangle and sample: the inside sample
(1, 1) of `triW1` on a 4×4 framebuffer passes the depth test and writes
red at the Y-flipped pixel (1, 2) with depth 1/2. -/
theorem rasterTriangle_sample_write_witness :
    (1 : ℕ) ≤ 4 ∧
    barycentric ⟨0, 0⟩ ⟨4, 0⟩ ⟨0, 4⟩ ⟨1, 1⟩ =
      some ⟨1/2, 1/4, 1/4⟩ ∧
    (rasterTriangle unitShader triW1 4 4 fbInit).depth 1 2 = 1/2 ∧
    (rasterTriangle unitShader triW1 4 4 fbInit).color 1 2 =
      ⟨255, 0, 0, 255⟩ := by
  have h := rasterTriangle_sample_write unitShader triW1 4 4 fbInit 1 1
    ⟨1/2, 1/4, 1/4⟩ (by decide) (by with_unfolding_all decide)
    (by with_unfolding_all decide) (by with_unfolding_all decide)
    (by with_unfolding_all decide) (by with_unfolding_all decide)
    (by with_unfolding_all decide)
  have h2 := h.2 (by with_unfolding_all decide)
  refine ⟨by decide, by with_unfolding_all decide, ?_, ?_⟩
  · rw [h2.1]
    with_unfolding_all decide
  · rw [h2.2]
    with_unfolding_all decide

/-- Claim C5: if triangle `t1` is rasterized before triangle `t2` into
the same framebuffer and both cover sample `(x₀, y₀)` with fragment
depths `d1`, `d2`, each below the initially stored depth at the target
pixel, then the final depth there is `min d1 d2` and the final color is
the quantized fragment color of the triangle attaining that minimum
(the first triangle on ties, which also attains the minimum). -/
theorem overdraw_min_depth (S : SProg) (t1 t2 : TriIn S)
    (width height : ℕ) (s : FB) (x₀ y₀ : ℕ) (d1 d2 : ℚ) (c1 c2 : Rgba)
    (h1x1 : (triBB S t1 width height).1.1 ≤ x₀)
    (h1x2 : x₀ ≤ (triBB S t1 width height).2.1)
    (h1y1 : (triBB S t1 width height).1.2 ≤ y₀)
    (h1y2 : y₀ ≤ (triBB S t1 width height).2.2)
    (h2x1 : (triBB S t2 width height).1.1 ≤ x₀)
    (h2x2 : x₀ ≤ (triBB S t2 width height).2.1)
    (h2y1 : (triBB S t2 width height).1.2 ≤ y₀)
    (h2y2 : y₀ ≤ (triBB S t2 width height).2.2)
    (hf1 : fragResult S t1 x₀ y₀ = some (d1, c1))
    (hf2 : fragResult S t2 x₀ y₀ = some (d2, c2))
    (hd1 : d1 < s.depth x₀ (height - 1 - y₀))
    (_hd2 : d2 < s.depth x₀ (height - 1 - y₀)) :
    (rasterTriangle S t2 width height
        (rasterTriangle S t1 width height s)).depth x₀ (height - 1 - y₀) =
      min d1 d2 ∧
    (d1 ≤ d2 →
      (rasterTriangle S t2 width height
          (rasterTriangle S t1 width height s)).color x₀
        (height - 1 - y₀) = c1) ∧
    (d2 < d1 →
      (rasterTriangle S t2 width height
          (rasterTriangle S t1 width height s)).color x₀
        (height - 1 - y₀) = c2) := by
  have h1 := rasterTriangle_cell_local S t1 width height s x₀ y₀
    h1x1 h1x2 h1y1 h1y2
  rw [hf1] at h1
  simp only [pixelStep, FB.cell, sampleTarget] at h1
  rw [if_pos hd1] at h1
  have h1d : (rasterTriangle S t1 width height s).depth x₀
      (height - 1 - y₀) = d1 := congrArg Prod.fst h1
  have h1c : (rasterTriangle S t1 width height s).color x₀
      (height - 1 - y₀) = c1 := congrArg Prod.snd h1
  have h2 := rasterTriangle_cell_local S t2 width height
    (rasterTriangle S t1 width height s) x₀ y₀ h2x1 h2x2 h2y1 h2y2
  rw [hf2] at h2
  simp only [pixelStep, FB.cell, sampleTarget] at h2
  rw [h1d, h1c] at h2
  by_cases hcmp : d2 < d1
  · rw [if_pos hcmp] at h2
    have h2d : (rasterTriangle S t2 width height
        (rasterTriangle S t1 width height s)).depth x₀
        (height - 1 - y₀) = d2 := congrArg Prod.fst h2
    have h2c : (rasterTriangle S t2 width height
        (rasterTriangle S t1 width height s)).color x₀
        (height - 1 - y₀) = c2 := congrArg Prod.snd h2
    refine ⟨?_, ?_, ?_⟩
    · rw [h2d]
      exact (min_eq_right (le_of_lt hcmp)).symm
    · intro h12
      exact absurd (lt_of_lt_of_le hcmp h12) (lt_irrefl d2)
    · intro _
      exact h2c
  · rw [if_neg hcmp] at h2
    have h2d : (rasterTriangle S t2 width height
        (rasterTriangle S t1 width height s)).depth x₀
        (height - 1 - y₀) = d1 := congrArg Prod.fst h2
    have h2c : (rasterTriangle S t2 width height
        (rasterTriangle S t1 width height s)).color x₀
        (height - 1 - y₀) = c1 := congrArg Prod.snd h2
    refine ⟨?_, ?_, ?_⟩
    · rw [h2d]
      exact (min_eq_left (le_of_not_lt hcmp)).symm
    · intro _
      exact h2c
    · intro h21
      exact absurd h21 hcmp

/-- Witness for C5: `triNear` (depth 1/4, red) drawn before `triFar`
(depth 1/2, black) over the same sample leaves depth 1/4 and the red
color at the target pixel. -/
theorem overdraw_min_depth_witness :
    fragResult blendShader triNear 1 1 =
      some (1/4, ⟨255, 0, 0, 255⟩) ∧
    fragResult blendShader triFar 1 1 =
      some (1/2, ⟨0, 0, 0, 255⟩) ∧
    (rasterTriangle blendShader triFar 4 4
        (rasterTriangle blendShader triNear 4 4 fbInit)).depth 1 2 =
      min (1/4 : ℚ) (1/2) ∧
    (rasterTriangle blendShader triFar 4 4
        (rasterTriangle blendShader triNear 4 4 fbInit)).color 1 2 =
      ⟨255, 0, 0, 255⟩ := by
  have h := overdraw_min_depth blendShader triNear triFar 4 4 fbInit 1 1
    (1/4) (1/2) ⟨255, 0, 0, 255⟩ ⟨0, 0, 0, 255⟩
    (by with_unfolding_all decide) (by with_unfolding_all decide)
    (by with_unfolding_all decide) (by with_unfolding_all decide)
    (by with_unfolding_all decide) (by with_unfolding_all decide)
    (by with_unfolding_all decide) (by with_unfolding_all decide)
    (by with_unfolding_all decide) (by with_unfolding_all decide)
    (by with_unfolding_all decide) (by with_unfolding_all decide)
  exact ⟨by with_unfolding_all decide, by with_unfolding_all decide,
    h.1, h.2.1 (by with_unfolding_all decide)⟩

/-- Counterexample to C2: with an odd width `W = 3` the code's
clip-to-screen mapping uses `f64::from(width / 2) = 1`, so NDC x = 1
maps to screen x = 2, while the spec's formula `(ndc.x + 1)·W/2` gives
3. -/
theorem screenOfClip_odd_width_counterexample :
    (screenOfClip ⟨1, 0, 0, 1⟩ (dimHalf 3) (dimHalf 3)).x = 2 ∧
    specScreenX 3 1 = 3 ∧ (2 : ℚ) ≠ 3 := by
  refine ⟨?_, ?_, ?_⟩ <;> with_unfolding_all decide

/-- Claim C2 (amended): for every clip position with nonzero w and
every image dimensions, the NDC-to-screen mapping of `draw_triangles`
yields `x = (ndc.x + 1)·⌊W/2⌋` and `y = (ndc.y + 1)·⌊H/2⌋` (the halves
are computed by integer division of the `u32` dimensions), a z clamped
to [−1, 1], and a fourth component that is the reciprocal of the
clip-space w. -/
theorem screenOfClip_spec (clip : Vec4) (width height : ℕ)
    (hw : clip.w ≠ 0) :
    (screenOfClip clip (dimHalf width) (dimHalf height)).x =
      (clip.x / clip.w + 1) * dimHalf width ∧
    (screenOfClip clip (dimHalf width) (dimHalf height)).y =
      (clip.y / clip.w + 1) * dimHalf height ∧
    (screenOfClip clip (dimHalf width) (dimHalf height)).z =
      clampQ (clip.z / clip.w) (-1) 1 ∧
    (screenOfClip clip (dimHalf width) (dimHalf height)).w * clip.w =
      1 := by
  unfold screenOfClip worldToScreen fromHomogenous
  exact ⟨rfl, rfl, rfl, one_div_mul_cancel hw⟩

/-- Witness for C2 (amended) at clip position (1, 2, 3, 2) and a 4×6
image. -/
theorem screenOfClip_spec_witness :
    ((2 : ℚ) ≠ 0) ∧
    ((screenOfClip ⟨1, 2, 3, 2⟩ (dimHalf 4) (dimHalf 6)).x =
        ((1 : ℚ) / 2 + 1) * dimHalf 4 ∧
      (screenOfClip ⟨1, 2, 3, 2⟩ (dimHalf 4) (dimHalf 6)).y =
        ((2 : ℚ) / 2 + 1) * dimHalf 6 ∧
      (screenOfClip ⟨1, 2, 3, 2⟩ (dimHalf 4) (dimHalf 6)).z =
        clampQ ((3 : ℚ) / 2) (-1) 1 ∧
      (screenOfClip ⟨1, 2, 3, 2⟩ (dimHalf 4) (dimHalf 6)).w * 2 = 1) :=
  ⟨by with_unfolding_all decide,
   screenOfClip_spec ⟨1, 2, 3, 2⟩ 4 6 (by with_unfolding_all decide)⟩

/-- Counterexample to C3: a triangle whose vertices all have clip-space
w = −1 is not skipped — `draw_triangles` performs the homogeneous
divide, rasterizes it and writes to the framebuffers. -/
theorem drawTriangles_negative_w_writes :
    (drawTriangles none passShader negWBuf 2 2 fbInit).color 0 1 ≠
      fbInit.color 0 1 := by
  with_unfolding_all decide

/-- Claim C3 (amended): a triangle whose screen-space edge cross
product (twice its signed area) has absolute value below 1 — in
particular every zero-area triangle — yields no barycentric
coordinates at any sample, so its rasterization raises no error and
leaves both framebuffers completely unchanged.  (Vertices with w ≤ 0
or NaN coordinates are not in general skipped; see the
counterexample.) -/
theorem rasterTriangle_degenerate_skip (S : SProg) (t : TriIn S)
    (width height : ℕ) (s : FB)
    (hdeg : |(t.c.x - t.a.x) * (t.b.y - t.a.y) -
        (t.b.x - t.a.x) * (t.c.y - t.a.y)| < 1) :
    rasterTriangle S t width height s = s := by
  have hbary : ∀ x y : ℕ,
      barycentric ⟨t.a.x, t.a.y⟩ ⟨t.b.x, t.b.y⟩ ⟨t.c.x, t.c.y⟩
        ⟨(x : ℚ), (y : ℚ)⟩ = none := by
    intro x y
    simp only [barycentric, cross3]
    rw [if_pos hdeg]
  have hbody : ∀ (s : FB) (x y : ℕ),
      rasterSample S t height s (x, y) = s := by
    intro s x y
    unfold rasterSample fragResult
    rw [hbary x y]
  have hinner : ∀ (ys : List ℕ) (s : FB) (x : ℕ),
      ys.foldl (fun s y => rasterSample S t height s (x, y)) s = s := by
    intro ys
    induction ys with
    | nil => intro s x; rfl
    | cons y ys ih =>
      intro s x
      rw [List.foldl_cons, hbody s x]
      exact ih s x
  have houter : ∀ (xs : List ℕ) (s : FB),
      xs.foldl (fun s x =>
        (rangeIncl (triBB S t width height).1.2
            (triBB S t width height).2.2).foldl
          (fun s y => rasterSample S t height s (x, y)) s) s = s := by
    intro xs
    induction xs with
    | nil => intro s; rfl
    | cons x xs ih =>
      intro s
      rw [List.foldl_cons, hinner _ s x]
      exact ih s
  exact houter _ s

/-- Witness for C3 (amended): a collinear (zero-area) screen triangle
leaves the framebuffer pair untouched. -/
theorem rasterTriangle_degenerate_skip_witness :
    |((2 : ℚ) - 0) * (1 - 0) - (1 - 0) * (2 - 0)| < 1 ∧
    rasterTriangle unitShader
      ⟨⟨0, 0, 0, 1⟩, ⟨1, 1, 0, 1⟩, ⟨2, 2, 0, 1⟩, (), (), ()⟩ 4 4 fbInit =
      fbInit :=
  ⟨by with_unfolding_all decide,
   rasterTriangle_degenerate_skip unitShader
     ⟨⟨0, 0, 0, 1⟩, ⟨1, 1, 0, 1⟩, ⟨2, 2, 0, 1⟩, (), (), ()⟩ 4 4 fbInit
     (by with_unfolding_all decide)⟩

theorem processTriples_get_zero (S : SProg) :
    ∀ (buffer : List S.Attr) (st : S.Var × S.Var × S.Var)
      (tv : TriVert S),
      (processTriples S buffer st).get? 0 = some tv → tv.obs = st
  | [], _, _, h => by simp [processTriples] at h
  | [a], _, _, h => by simp [processTriples] at h
  | [a, b], _, _, h => by simp [processTriples] at h
  | a :: b :: c :: rest, st, tv, h => by
    obtain ⟨va, vb, vc⟩ := st
    have hstep : processTriples S (a :: b :: c :: rest) (va, vb, vc) =
        (⟨(va, vb, vc),
          ((S.vertex a va).1, (S.vertex b vb).1, (S.vertex c vc).1),
          ((S.vertex a va).2, (S.vertex b vb).2, (S.vertex c vc).2)⟩ :
          TriVert S) ::
        processTriples S rest
          ((S.vertex a va).1, (S.vertex b vb).1, (S.vertex c vc).1) :=
      rfl
    rw [hstep, List.get?_cons_zero] at h
    injection h with h
    rw [← h]

theorem processTriples_get_succ (S : SProg) :
    ∀ (buffer : List S.Attr) (st : S.Var × S.Var × S.Var) (i : ℕ)
      (ti tj : TriVert S),
      (processTriples S buffer st).get? i = some ti →
      (processTriples S buffer st).get? (i + 1) = some tj →
      tj.obs = ti.vars
  | [], _, _, _, _, hi, _ => by simp [processTriples] at hi
  | [a], _, _, _, _, hi, _ => by simp [processTriples] at hi
  | [a, b], _, _, _, _, hi, _ => by simp [processTriples] at hi
  | a :: b :: c :: rest, st, 0, ti, tj, hi, hj => by
    obtain ⟨va, vb, vc⟩ := st
    have hstep : processTriples S (a :: b :: c :: rest) (va, vb, vc) =
        (⟨(va, vb, vc),
          ((S.vertex a va).1, (S.vertex b vb).1, (S.vertex c vc).1),
          ((S.vertex a va).2, (S.vertex b vb).2, (S.vertex c vc).2)⟩ :
          TriVert S) ::
        processTriples S rest
          ((S.vertex a va).1, (S.vertex b vb).1, (S.vertex c vc).1) :=
      rfl
    rw [hstep, List.get?_cons_zero] at hi
    rw [hstep, List.get?_cons_succ] at hj
    injection hi with hi
    have hjo := processTriples_get_zero S rest _ tj hj
    rw [hjo, ← hi]
  | a :: b :: c :: rest, st, i + 1, ti, tj, hi, hj => by
    obtain ⟨va, vb, vc⟩ := st
    have hstep : processTriples S (a :: b :: c :: rest) (va, vb, vc) =
        (⟨(va, vb, vc),
          ((S.vertex a va).1, (S.vertex b vb).1, (S.vertex c vc).1),
          ((S.vertex a va).2, (S.vertex b vb).2, (S.vertex c vc).2)⟩ :
          TriVert S) ::
        processTriples S rest
          ((S.vertex a va).1, (S.vertex b vb).1, (S.vertex c vc).1) :=
      rfl
    rw [hstep, List.get?_cons_succ] at hi
    rw [hstep, List.get?_cons_succ] at hj
    exact processTriples_get_succ S rest _ i ti tj hi hj

/-- Counterexample to C6: with a shader whose vertex stage increments
the varying record it receives, the second triangle of a six-vertex
draw observes (1, 1, 1), not the default (0, 0, 0) — the three varying
records are allocated once per `draw_triangles` call and reused. -/
theorem varying_default_counterexample :
    (obsList countShader sixUnits).get? 1 = some (1, 1, 1) ∧
    ((1 : ℤ), (1 : ℤ), (1 : ℤ)) ≠
      (countShader.dflt, countShader.dflt, countShader.dflt) := by
  constructor
  · with_unfolding_all rfl
  · with_unfolding_all decide

/-- Claim C6 (amended): in a `draw_triangles` call the three varying
records are default-initialized once, before the triangle loop: the
first triangle's vertex invocations observe `Varying::default()`, and
each later triangle's vertex invocations observe exactly the varying
contents left behind by the previous triangle's vertex invocations. -/
theorem varying_slots_reused (S : SProg) (buffer : List S.Attr) (i : ℕ)
    (ti tj : TriVert S)
    (hi : (processTriples S buffer (S.dflt, S.dflt, S.dflt)).get? i =
      some ti)
    (hj : (processTriples S buffer (S.dflt, S.dflt, S.dflt)).get?
      (i + 1) = some tj) :
    tj.obs = ti.vars ∧
    (i = 0 → ti.obs = (S.dflt, S.dflt, S.dflt)) := by
  constructor
  · exact processTriples_get_succ S buffer _ i ti tj hi hj
  · intro h0
    subst h0
    exact processTriples_get_zero S buffer _ ti hi

/-- Witness for C6 (amended) on `countShader` with two triangles. -/
theorem varying_slots_reused_witness :
    (processTriples countShader sixUnits
        (countShader.dflt, countShader.dflt, countShader.dflt)).get? 0 =
      some ⟨(0, 0, 0), (1, 1, 1),
        (⟨0, 0, 0, 1⟩, ⟨0, 0, 0, 1⟩, ⟨0, 0, 0, 1⟩)⟩ ∧
    (processTriples countShader sixUnits
        (countShader.dflt, countShader.dflt, countShader.dflt)).get? 1 =
      some ⟨(1, 1, 1), (2, 2, 2),
        (⟨0, 0, 0, 1⟩, ⟨0, 0, 0, 1⟩, ⟨0, 0, 0, 1⟩)⟩ ∧
    (((1 : ℤ), (1 : ℤ), (1 : ℤ)) = (1, 1, 1) ∧
      ((0 : ℕ) = 0 → ((0 : ℤ), (0 : ℤ), (0 : ℤ)) =
        (countShader.dflt, countShader.dflt, countShader.dflt))) := by
  refine ⟨by with_unfolding_all rfl, by with_unfolding_all rfl, ?_⟩
  exact varying_slots_reused countShader sixUnits 0
    ⟨(0, 0, 0), (1, 1, 1), (⟨0, 0, 0, 1⟩, ⟨0, 0, 0, 1⟩, ⟨0, 0, 0, 1⟩)⟩
    ⟨(1, 1, 1), (2, 2, 2), (⟨0, 0, 0, 1⟩, ⟨0, 0, 0, 1⟩, ⟨0, 0, 0, 1⟩)⟩
    (by with_unfolding_all rfl) (by with_unfolding_all rfl)

theorem barycentric_swap (a b c p : Vec2) :
    barycentric a c b p =
      (barycentric a b c p).map (fun bc => ⟨bc.x, bc.z, bc.y⟩) := by
  simp only [barycentric, cross3]
  have hneg : (b.x - a.x) * (c.y - a.y) - (c.x - a.x) * (b.y - a.y) =
      -((c.x - a.x) * (b.y - a.y) - (b.x - a.x) * (c.y - a.y)) := by ring
  by_cases h : |(c.x - a.x) * (b.y - a.y) - (b.x - a.x) * (c.y - a.y)| < 1
  · rw [if_pos h, if_pos (by rw [hneg, abs_neg]; exact h)]
    rfl
  · rw [if_neg h, if_neg (by rw [hneg, abs_neg]; exact h)]
    have hne : (c.x - a.x) * (b.y - a.y) - (b.x - a.x) * (c.y - a.y) ≠ 0 := by
      intro h0
      rw [h0] at h
      exact h (by norm_num)
    have hz : (b.x - a.x) * (c.y - a.y) - (c.x - a.x) * (b.y - a.y) ≠ 0 := by
      rw [hneg]
      exact neg_ne_zero.mpr hne
    simp only [Option.map_some']
    refine congrArg some ?_
    simp only [Vec3.mk.injEq]
    refine ⟨?_, ?_, ?_⟩
    · congr 1
      rw [div_eq_div_iff hz hne]
      ring
    · rw [div_eq_div_iff hz hne]
      ring
    · rw [div_eq_div_iff hz hne]
      ring

theorem interp4_swap (a b c : Vec4) (bc : Vec3) :
    interp4 a c b ⟨bc.x, bc.z, bc.y⟩ = interp4 a b c bc := by
  simp only [interp4, interpQ, Vec4.mk.injEq]
  refine ⟨by ring, by ring, by ring, by ring⟩

theorem boundingBox_swap (a b c : Vec2) (width height : ℕ) :
    boundingBox a c b width height = boundingBox a b c width height := by
  unfold boundingBox
  rw [min_right_comm a.x c.x b.x, sup_right_comm a.x c.x b.x,
    min_right_comm a.y c.y b.y, sup_right_comm a.y c.y b.y]

theorem fragResult_swap (S : SProg) (t : TriIn S)
    (hSym : ∀ (va vb vc : S.Var) (bc : Vec3),
      S.interp va vc vb ⟨bc.x, bc.z, bc.y⟩ = S.interp va vb vc bc)
    (x y : ℕ) :
    fragResult S ⟨t.a, t.c, t.b, t.va, t.vc, t.vb⟩ x y =
      fragResult S t x y := by
  unfold fragResult
  rw [barycentric_swap]
  cases barycentric ⟨t.a.x, t.a.y⟩ ⟨t.b.x, t.b.y⟩ ⟨t.c.x, t.c.y⟩
      ⟨(x : ℚ), (y : ℚ)⟩ with
  | none => rfl
  | some bc =>
    simp only [Option.map_some']
    by_cases hneg : bc.x < 0 ∨ bc.y < 0 ∨ bc.z < 0
    · rw [if_pos (by tauto), if_pos hneg]
    · rw [if_neg (by tauto), if_neg hneg]
      rw [interp4_swap t.a t.b t.c bc, hSym t.va t.vb t.vc bc]

theorem rasterSample_swap (S : SProg) (t : TriIn S)
    (hSym : ∀ (va vb vc : S.Var) (bc : Vec3),
      S.interp va vc vb ⟨bc.x, bc.z, bc.y⟩ = S.interp va vb vc bc)
    (height : ℕ) (s : FB) (xy : ℕ × ℕ) :
    rasterSample S ⟨t.a, t.c, t.b, t.va, t.vc, t.vb⟩ height s xy =
      rasterSample S t height s xy := by
  unfold rasterSample
  rw [fragResult_swap S t hSym]

theorem rasterTriangle_swap (S : SProg) (t : TriIn S)
    (hSym : ∀ (va vb vc : S.Var) (bc : Vec3),
      S.interp va vc vb ⟨bc.x, bc.z, bc.y⟩ = S.interp va vb vc bc)
    (width height : ℕ) (s : FB) :
    rasterTriangle S ⟨t.a, t.c, t.b, t.va, t.vc, t.vb⟩ width height s =
      rasterTriangle S t width height s := by
  unfold rasterTriangle
  have hbb : triBB S ⟨t.a, t.c, t.b, t.va, t.vc, t.vb⟩ width height =
      triBB S t width height := by
    unfold triBB
    exact boundingBox_swap ⟨t.a.x, t.a.y⟩ ⟨t.b.x, t.b.y⟩ ⟨t.c.x, t.c.y⟩
      width height
  rw [hbb]
  simp only [rasterSample_swap S t hSym]

theorem shouldCull_swap (wa wb wc : Vec4) :
    shouldCull (some CullFace.Front) wa wc wb =
      shouldCull (some CullFace.Back) wa wb wc := by
  simp only [shouldCull, faceNormal, cross3]
  rw [decide_eq_decide]
  rw [show (wc.x - wa.x) * (wb.y - wa.y) - (wc.y - wa.y) * (wb.x - wa.x) =
      -((wb.x - wa.x) * (wc.y - wa.y) - (wb.y - wa.y) * (wc.x - wa.x)) from
    by ring]
  exact neg_pos

/-- Counterexample to C4: with a shader whose varying "interpolation"
returns the second vertex's varying (a legal but asymmetric `Smooth`
implementation), drawing (a, b, c) with Back culling and (a, c, b)
with Front culling produce different framebuffers. -/
theorem cull_symmetry_counterexample :
    (drawTriangles (some CullFace.Back) asymShader tagBufABC 2 2
        fbInit).color 0 1 ≠
      (drawTriangles (some CullFace.Front) asymShader tagBufACB 2 2
        fbInit).color 0 1 := by
  with_unfolding_all decide

/-- Claim C4 (amended): for every shader whose varying interpolation is
invariant under simultaneously swapping the last two vertices and their
barycentric weights (as every barycentric blend is), every triangle
(a, b, c) and every starting framebuffer pair, drawing (a, b, c) with
`cull_face = Back` and drawing (a, c, b) with `cull_face = Front`
produce identical color and depth framebuffers. -/
theorem cull_symmetry (S : SProg) (A B C : S.Attr) (width height : ℕ)
    (s : FB)
    (hSym : ∀ (va vb vc : S.Var) (bc : Vec3),
      S.interp va vc vb ⟨bc.x, bc.z, bc.y⟩ = S.interp va vb vc bc) :
    drawTriangles (some CullFace.Back) S [A, B, C] width height s =
      drawTriangles (some CullFace.Front) S [A, C, B] width height s := by
  unfold drawTriangles
  have h1 : processTriples S [A, B, C] (S.dflt, S.dflt, S.dflt) =
      [⟨(S.dflt, S.dflt, S.dflt),
        ((S.vertex A S.dflt).1, (S.vertex B S.dflt).1,
         (S.vertex C S.dflt).1),
        ((S.vertex A S.dflt).2, (S.vertex B S.dflt).2,
         (S.vertex C S.dflt).2)⟩] := rfl
  have h2 : processTriples S [A, C, B] (S.dflt, S.dflt, S.dflt) =
      [⟨(S.dflt, S.dflt, S.dflt),
        ((S.vertex A S.dflt).1, (S.vertex C S.dflt).1,
         (S.vertex B S.dflt).1),
        ((S.vertex A S.dflt).2, (S.vertex C S.dflt).2,
         (S.vertex B S.dflt).2)⟩] := rfl
  rw [h1, h2]
  simp only [List.foldl_cons, List.foldl_nil]
  rw [shouldCull_swap ((S.vertex A S.dflt).2) ((S.vertex B S.dflt).2)
    ((S.vertex C S.dflt).2)]
  by_cases hc : shouldCull (some CullFace.Back) (S.vertex A S.dflt).2
      (S.vertex B S.dflt).2 (S.vertex C S.dflt).2 = true
  · rw [hc]
    simp only [if_true]
  · rw [Bool.not_eq_true] at hc
    rw [hc]
    simp only [Bool.false_eq_true, if_false]
    exact (rasterTriangle_swap S
      ⟨screenOfClip (S.vertex A S.dflt).2 (dimHalf width) (dimHalf height),
       screenOfClip (S.vertex B S.dflt).2 (dimHalf width) (dimHalf height),
       screenOfClip (S.vertex C S.dflt).2 (dimHalf width) (dimHalf height),
       (S.vertex A S.dflt).1, (S.vertex B S.dflt).1,
       (S.vertex C S.dflt).1⟩
      hSym width height s).symm

/-- Witness for C4 (amended): `passShader` (unit varying, trivially
symmetric blend) on a concrete counter-clockwise triangle. -/
theorem cull_symmetry_witness :
    drawTriangles (some CullFace.Back) passShader
        [⟨-1, -1, 0, 1⟩, ⟨1, -1, 0, 1⟩, ⟨-1, 1, 0, 1⟩] 2 2 fbInit =
      drawTriangles (some CullFace.Front) passShader
        [⟨-1, -1, 0, 1⟩, ⟨-1, 1, 0, 1⟩, ⟨1, -1, 0, 1⟩] 2 2 fbInit :=
  cull_symmetry passShader ⟨-1, -1, 0, 1⟩ ⟨1, -1, 0, 1⟩ ⟨-1, 1, 0, 1⟩
    2 2 fbInit (fun _ _ _ _ => rfl)

theorem ratToU32_le (q : ℚ) (m : ℕ) (hq : q ≤ m) : ratToU32 q ≤ m := by
  unfold ratToU32
  by_cases h : q < 0
  · rw [if_pos h]
    exact Nat.zero_le m
  · rw [if_neg h]
    refine le_trans (Nat.min_le_left _ _) ?_
    have hf : q.floor ≤ (m : ℤ) := by
      by_contra hlt
      push_neg at hlt
      have hle : ((m : ℤ) + 1 : ℚ) ≤ q :=
        mod_cast Rat.le_floor.mp (Int.add_one_le_iff.mpr hlt)
      push_cast at hle
      linarith
    exact Int.toNat_le.mpr hf

theorem xqClamp_unit (w : XQ) :
    ∃ q : ℚ, xqClamp w 0 1 = XQ.fin q ∧ 0 ≤ q ∧ q ≤ 1 := by
  cases w with
  | fin q =>
    refine ⟨min 1 (max 0 q), rfl, ?_, ?_⟩
    · exact le_min (by norm_num) (le_max_left 0 q)
    · exact min_le_left 1 _
  | pinf => exact ⟨1, rfl, by norm_num, by norm_num⟩
  | ninf => exact ⟨min 1 0, rfl, by norm_num, by norm_num⟩

theorem xqScaleCast_le (w : XQ) (n : ℕ) (q : ℚ)
    (hw : xqClamp w 0 1 = XQ.fin q) (_h0 : 0 ≤ q) (h1 : q ≤ 1) :
    xqScaleCast (xqClamp w 0 1) n ≤ n := by
  rw [hw]
  unfold xqScaleCast
  refine ratToU32_le _ n ?_
  calc q * n ≤ 1 * n := by
        exact mul_le_mul_of_nonneg_right h1 (by positivity)
    _ = n := one_mul _

/-- Counterexample to C7: on a 0×0 image, `sample_nearest` does not
return (0, 0, 0, 0) — the underlying pixel read indexes an empty
buffer and panics (modelled as `none`). -/
theorem sampleNearest_empty_counterexample :
    img00.sampleNearest (XQ.fin 0) (XQ.fin 0) = none ∧
    img00.sampleNearest (XQ.fin 0) (XQ.fin 0) ≠ some [0, 0, 0, 0] := by
  constructor
  · with_unfolding_all decide
  · with_unfolding_all decide

/-- Claim C7 (amended): for every (u, v), including infinities,
`sample_nearest` clamps (u, v) to [0, 1]², reads the pixel at
(⌊u·(W−1)⌋, ⌊v·(H−1)⌋), and hence never accesses an out-of-range pixel
when W, H ≥ 1 (the read succeeds); `sample_nearest(−∞, +∞)` equals
`sample_nearest(0, 1)`.  The channels are returned unchanged by the
identity `Into` conversion (no normalization), and a 0-dimension image
panics instead of returning zeros (see the counterexample). -/
theorem sampleNearest_safe {α : Type} (img : Image α 4) (u v : XQ)
    (hbuf : 4 * img.width * img.height ≤ img.buffer.length)
    (hW : 1 ≤ img.width) (hH : 1 ≤ img.height) :
    (img.sampleNearest u v).isSome = true ∧
    img.sampleNearest XQ.ninf XQ.pinf =
      img.sampleNearest (XQ.fin 0) (XQ.fin 1) := by
  constructor
  · obtain ⟨qu, hqu, hqu0, hqu1⟩ := xqClamp_unit u
    obtain ⟨qv, hqv, hqv0, hqv1⟩ := xqClamp_unit v
    have hx : xqScaleCast (xqClamp u 0 1) (img.width - 1) ≤
        img.width - 1 := xqScaleCast_le u _ qu hqu hqu0 hqu1
    have hy : xqScaleCast (xqClamp v 0 1) (img.height - 1) ≤
        img.height - 1 := xqScaleCast_le v _ qv hqv hqv0 hqv1
    unfold Image.sampleNearest Image.pixel sliceRange
    rw [if_pos]
    · rfl
    constructor
    · exact Nat.le_add_right _ _
    · refine le_trans ?_ hbuf
      have hyw : (xqScaleCast (xqClamp v 0 1) (img.height - 1)) *
          img.width + (xqScaleCast (xqClamp u 0 1) (img.width - 1)) + 1 ≤
          img.width * img.height := by
        have h1 : (xqScaleCast (xqClamp v 0 1) (img.height - 1)) *
            img.width ≤ (img.height - 1) * img.width :=
          Nat.mul_le_mul_right _ hy
        have h2 : (img.height - 1) * img.width =
            img.height * img.width - img.width := Nat.sub_one_mul _ _
        have h3 : img.width ≤ img.height * img.width :=
          Nat.le_mul_of_pos_left _ (by omega)
        have h4 : img.width * img.height = img.height * img.width :=
          Nat.mul_comm _ _
        omega
      calc 4 * ((xqScaleCast (xqClamp v 0 1) (img.height - 1)) *
              img.width + (xqScaleCast (xqClamp u 0 1) (img.width - 1))) +
            4 =
          4 * ((xqScaleCast (xqClamp v 0 1) (img.height - 1)) *
              img.width + (xqScaleCast (xqClamp u 0 1) (img.width - 1)) +
            1) := by ring
        _ ≤ 4 * (img.width * img.height) := Nat.mul_le_mul_left 4 hyw
        _ = 4 * img.width * img.height := by ring
  · unfold Image.sampleNearest
    have h1 : xqClamp XQ.ninf 0 1 = xqClamp (XQ.fin 0) 0 1 := by
      unfold xqClamp xqMax xqMin
      norm_num
    have h2 : xqClamp XQ.pinf 0 1 = xqClamp (XQ.fin 1) 0 1 := by
      unfold xqClamp xqMax xqMin
      norm_num
    rw [h1, h2]

/-- Witness for C7 (amended) on the concrete 2×2 image `img22`, with an
infinite v coordinate. -/
theorem sampleNearest_safe_witness :
    (4 * img22.width * img22.height ≤ img22.buffer.length ∧
      1 ≤ img22.width ∧ 1 ≤ img22.height) ∧
    ((img22.sampleNearest (XQ.fin (1/3)) XQ.pinf).isSome = true ∧
      img22.sampleNearest XQ.ninf XQ.pinf =
        img22.sampleNearest (XQ.fin 0) (XQ.fin 1)) :=
  ⟨⟨by decide, by decide, by decide⟩,
   sampleNearest_safe img22 (XQ.fin (1/3)) XQ.pinf (by decide) (by decide)
     (by decide)⟩

/-- Counterexample to C8: on the 2×2 image `img22`, reading pixel
(2, 0) — x out of range — does not abort: the flattened index wraps
into the next row and returns the pixel stored at (0, 1). -/
theorem pixel_wraps_counterexample :
    img22.pixel 2 0 = some [8, 9, 10, 11] ∧
    img22.pixel 2 0 ≠ none ∧
    img22.pixel 0 1 = some [8, 9, 10, 11] := by
  refine ⟨by decide, by decide, by decide⟩

/-- Claim C8 (amended): for an image whose buffer has the standard
length `channel_count · W · H`, `pixel(x, y)` and `set_pixel(x, y, v)`
abort (slice panic, modelled as `none`, with nothing read or written)
exactly when the flattened index `y·W + x` is at least `W·H`; an x ≥ W
with `y·W + x < W·H` instead accesses the pixel at that flattened
index, wrapping into subsequent rows. -/
theorem pixel_bounds (α : Type) (c : ℕ) (img : Image α c) (x y : ℕ)
    (p : List α)
    (hbuf : img.buffer.length = c * img.width * img.height)
    (hc : 1 ≤ c) :
    ((img.pixel x y = none) ↔
      img.width * img.height ≤ y * img.width + x) ∧
    ((img.setPixel x y p = none) ↔
      img.width * img.height ≤ y * img.width + x) := by
  have hiffs : (c * (y * img.width + x) + c ≤ img.buffer.length) ↔
      ¬ (img.width * img.height ≤ y * img.width + x) := by
    rw [hbuf, not_le]
    have e1 : c * (y * img.width + x) + c =
        c * (y * img.width + x + 1) := by ring
    have e2 : c * img.width * img.height =
        c * (img.width * img.height) := by ring
    rw [e1, e2]
    constructor
    · intro hcl
      have := Nat.le_of_mul_le_mul_left hcl (by omega)
      omega
    · intro hlt
      exact Nat.mul_le_mul_left c (by omega)
  constructor
  · unfold Image.pixel sliceRange
    by_cases hcc : c * (y * img.width + x) + c ≤ img.buffer.length
    · rw [if_pos ⟨Nat.le_add_right _ _, hcc⟩]
      exact iff_of_false (by simp) (hiffs.mp hcc)
    · rw [if_neg (fun hand => hcc hand.2)]
      refine iff_of_true rfl ?_
      by_contra hlt
      exact hcc (hiffs.mpr hlt)
  · unfold Image.setPixel
    by_cases hcc : c * (y * img.width + x) + c ≤ img.buffer.length
    · rw [if_pos hcc]
      exact iff_of_false (by simp) (hiffs.mp hcc)
    · rw [if_neg hcc]
      refine iff_of_true rfl ?_
      by_contra hlt
      exact hcc (hiffs.mpr hlt)

/-- Witness for C8 (amended) on `img22` at the out-of-bounds row y = 2. -/
theorem pixel_bounds_witness :
    (img22.buffer.length = 4 * img22.width * img22.height ∧
      (1 : ℕ) ≤ 4) ∧
    (((img22.pixel 0 2 = none) ↔
        img22.width * img22.height ≤ 2 * img22.width + 0) ∧
      ((img22.setPixel 0 2 [0, 0, 0, 0] = none) ↔
        img22.width * img22.height ≤ 2 * img22.width + 0)) :=
  ⟨⟨by decide, by decide⟩,
   pixel_bounds ℕ 4 img22 0 2 [0, 0, 0, 0] (by decide) (by decide)⟩

/-- Claim C9: `Image::from_raw(buf, W, H)` fails exactly when the
buffer is shorter than `W·H·channel_count`; for a sufficient buffer it
returns an image with dimensions (W, H) whose pixels come from the
buffer in row-major order (`pixel(x, y)` is the channel slice starting
at `channel_count · (y·W + x)`). -/
theorem fromRaw_spec {α : Type} (c : ℕ) (buf : List α) (w h x y : ℕ)
    (hx : x < w) (hy : y < h) :
    ((Image.fromRaw (α := α) (c := c) buf w h = none) ↔
      buf.length < w * h * c) ∧
    (w * h * c ≤ buf.length →
      Image.fromRaw (α := α) (c := c) buf w h = some ⟨w, h, buf⟩ ∧
      (Image.mk w h buf : Image α c).dimensions = (w, h) ∧
      (Image.mk w h buf : Image α c).pixel x y =
        some ((buf.drop (c * (y * w + x))).take c)) := by
  constructor
  · unfold Image.fromRaw
    by_cases hle : w * h * c ≤ buf.length
    · rw [if_pos hle]
      simp only [reduceCtorEq, false_iff, not_lt]
      exact hle
    · rw [if_neg hle]
      simp only [true_iff]
      omega
  · intro hle
    refine ⟨?_, rfl, ?_⟩
    · unfold Image.fromRaw
      rw [if_pos hle]
    · unfold Image.pixel sliceRange
      have hbound : c * (y * w + x) + c ≤ buf.length := by
        have h1 : y * w + x + 1 ≤ w * h := by
          have h2 : y * w + x < (y + 1) * w := by
            have := Nat.add_lt_add_left hx (y * w)
            calc y * w + x < y * w + w := this
              _ = (y + 1) * w := by ring
          have h3 : (y + 1) * w ≤ h * w :=
            Nat.mul_le_mul_right w hy
          have h4 : h * w = w * h := Nat.mul_comm h w
          omega
        calc c * (y * w + x) + c = c * (y * w + x + 1) := by ring
          _ ≤ c * (w * h) := Nat.mul_le_mul_left c h1
          _ = w * h * c := by ring
          _ ≤ buf.length := hle
      rw [if_pos ⟨Nat.le_add_right _ _, hbound⟩]
      rw [Nat.add_sub_cancel_left]

/-- Witness for C9 on a concrete 2-channel 2×1 image built from the
buffer [1, 2, 3, 4]. -/
theorem fromRaw_spec_witness :
    (Image.fromRaw (α := ℕ) (c := 2) [1, 2, 3, 4] 2 1 =
      some ⟨2, 1, [1, 2, 3, 4]⟩) ∧
    (Image.mk 2 1 [1, 2, 3, 4] : Image ℕ 2).dimensions = (2, 1) ∧
    (Image.mk 2 1 [1, 2, 3, 4] : Image ℕ 2).pixel 1 0 = some [3, 4] := by
  have h := (fromRaw_spec 2 [1, 2, 3, 4] 2 1 1 0 (by decide)
    (by decide)).2 (by decide)
  refine ⟨h.1, h.2.1, ?_⟩
  rw [h.2.2]
  decide
